import Mathlib

/-!
Shallow embedding of the Solar Energy Tracker core
(src/components/weekly-summary.tsx and src/components/solar-chart.tsx).

Calendar dates are modelled as rata-die day numbers (`Int`, days since
1970-01-01).  The application stores dates as ISO "yyyy-MM-dd" strings; for
valid dates that format is a bijection with day numbers, so string equality
on dates in the source corresponds to `Int` equality here.  The civil
(year/month/day) reading of a day number is provided by `civilFromDays` /
`daysFromCivil` (the standard Gregorian conversion, as performed by the
`date-fns` `format`/`parseISO` pair), used to state the month/year/leap
boundary facts.

`crypto.randomUUID()` is an external effect; it is modelled by an explicit
supply `gen : Nat → String` of generated identifiers.
-/

namespace SolarTracker

/-- A production entry, as in the `SolarEntry` interface of
weekly-summary.tsx: an ISO date (here: day number), a production value in
kWh, and an opaque identifier. -/
structure SolarEntry where
  date : Int
  production : ℚ
  id : String
deriving DecidableEq, Repr

/-- Day of week of a day number, 0 = Sunday (1970-01-01 is a Thursday = 4).
This is the day-of-week notion `date-fns` `startOfWeek` relies on with its
default `weekStartsOn: 0`. -/
def dayOfWeek (n : Int) : Int := (n + 4) % 7

/-- `date-fns` `startOfWeek(date)` with the default `weekStartsOn: 0`:
the Sunday at or before the given day. -/
def startOfWeek (n : Int) : Int := n - dayOfWeek n

/-- A civil (Gregorian) calendar date, the year/month/day reading of the
ISO string. -/
structure CivilDate where
  year : Int
  month : Int
  day : Int
deriving DecidableEq, Repr

/-- Day number of a civil date (standard civil-from-days/days-from-civil
Gregorian conversion, epoch 1970-01-01). -/
def daysFromCivil (c : CivilDate) : Int :=
  let y := if c.month ≤ 2 then c.year - 1 else c.year
  let era := Int.fdiv y 400
  let yoe := y - era * 400
  let doy := Int.fdiv (153 * (if c.month > 2 then c.month - 3 else c.month + 9) + 2) 5 + c.day - 1
  let doe := yoe * 365 + Int.fdiv yoe 4 - Int.fdiv yoe 100 + doy
  era * 146097 + doe - 719468

/-- Civil date of a day number (inverse Gregorian conversion). -/
def civilFromDays (z : Int) : CivilDate :=
  let z' := z + 719468
  let era := Int.fdiv z' 146097
  let doe := z' - era * 146097
  let yoe := Int.fdiv (doe - Int.fdiv doe 1460 + Int.fdiv doe 36524 - Int.fdiv doe 146096) 365
  let y := yoe + era * 400
  let doy := doe - (365 * yoe + Int.fdiv yoe 4 - Int.fdiv yoe 100)
  let mp := Int.fdiv (5 * doy + 2) 153
  let d := doy - Int.fdiv (153 * mp + 2) 5 + 1
  let m := if mp < 10 then mp + 3 else mp - 9
  ⟨if m ≤ 2 then y + 1 else y, m, d⟩

/-- `getCurrentWeekEntries` (weekly-summary.tsx, lines 337-360): the week
window.  `weekStart = startOfWeek(date)`; seven consecutive dates; each day
takes the first stored entry found for that date (`entries.find`), else
zero production; the id is the found entry's id when truthy, else a fresh
generated one (`entry?.id || crypto.randomUUID()`; the empty string is
falsy in JS). -/
def getCurrentWeekEntries (gen : Nat → String) (anchor : Int)
    (entries : List SolarEntry) : List SolarEntry :=
  (List.range 7).map (fun (i : Nat) =>
    let weekDate := startOfWeek anchor + (i : Int)
    match entries.find? (fun e => e.date = weekDate) with
    | some e => { date := weekDate, production := e.production,
                  id := if e.id = "" then gen i else e.id }
    | none => { date := weekDate, production := 0, id := gen i })

/-- Weekly total (weekly-summary.tsx line 367):
`weeklyEntries.reduce((sum, entry) => sum + entry.production, 0)`. -/
def weeklyTotal (w : List SolarEntry) : ℚ :=
  w.foldl (fun sum entry => sum + entry.production) 0

/-- Number of productive days (line 368):
`weeklyEntries.filter((entry) => entry.production > 0).length`. -/
def daysWithProduction (w : List SolarEntry) : Nat :=
  (w.filter (fun entry => entry.production > 0)).length

/-- Daily average (line 369):
`daysWithProduction > 0 ? weeklyTotal / daysWithProduction : 0`. -/
def dailyAverage (w : List SolarEntry) : ℚ :=
  if daysWithProduction w > 0 then weeklyTotal w / (daysWithProduction w : ℚ)
  else 0

/-- Maximum production (line 370): `Math.max(...map(production))` on the
(always nonempty, 7-element) week window.  The empty-list case of the
variadic `Math.max` (-Infinity) has no rational counterpart and never
arises for week windows; it is mapped to 0 here. -/
def maxProduction : List SolarEntry → ℚ
  | [] => 0
  | e :: es => (es.map (fun entry => entry.production)).foldl max e.production

/-- Best day (line 371):
`weeklyEntries.find((entry) => entry.production === maxProduction)`. -/
def maxProductionDay (w : List SolarEntry) : Option SolarEntry :=
  w.find? (fun entry => entry.production = maxProduction w)

/-- The result record of `calculateWeeklyStats` (lines 365-387). -/
structure WeeklyStats where
  weeklyTotal : ℚ
  dailyAverage : ℚ
  maxProduction : ℚ
  maxProductionDay : Option SolarEntry
deriving DecidableEq, Repr

/-- `calculateWeeklyStats` (lines 365-387). -/
def calculateWeeklyStats (w : List SolarEntry) : WeeklyStats :=
  { weeklyTotal := weeklyTotal w
    dailyAverage := dailyAverage w
    maxProduction := maxProduction w
    maxProductionDay := maxProductionDay w }

/-- The BEST DAY actually reported (weekly-summary.tsx line 559, and
identically line 41-43 of the `WeeklySummary` component):
`maxProduction > 0 && maxProductionDay ? <day> : "No data"`. -/
def reportedBestDay (w : List SolarEntry) : Option SolarEntry :=
  if 0 < maxProduction w then maxProductionDay w else none

/-- Chart reference average (solar-chart.tsx lines 25-28): mean of the
production values that are `> 0`, and 0 when there are none. -/
def chartReferenceAverage (w : List SolarEntry) : ℚ :=
  let productionValues := w.map (fun entry => entry.production)
  let nonZeroValues := productionValues.filter (fun value => value > 0)
  if nonZeroValues.length > 0 then
    (nonZeroValues.foldl (fun sum value => sum + value) 0) / (nonZeroValues.length : ℚ)
  else 0

/-- `onSubmit` (weekly-summary.tsx lines 242-272): upsert by date.
`findIndex` + in-place replacement of the first entry with the given date
(production only; id and date kept), else append of a new entry carrying
the freshly generated id. -/
def upsertEntries : List SolarEntry → Int → ℚ → String → List SolarEntry
  | [], d, p, newId => [⟨d, p, newId⟩]
  | e :: es, d, p, newId =>
    if e.date = d then { e with production := p } :: es
    else e :: upsertEntries es d p newId

/-- `confirmDelete` (line 299): `entries.filter((e) => e.id !== entryToDelete.id)`. -/
def removeEntries (es : List SolarEntry) (targetId : String) : List SolarEntry :=
  es.filter (fun e => e.id ≠ targetId)

/-- The delete-undo action (line 311):
`setEntries((prev) => [...prev, deletedEntry])`. -/
def restoreEntry (es : List SolarEntry) (deletedEntry : SolarEntry) : List SolarEntry :=
  es ++ [deletedEntry]

/-- An entry as parsed from localStorage: the id may be missing
(`undefined`) or present; the empty string is falsy in JS and is treated
like a missing id by `entry.id || crypto.randomUUID()`. -/
structure RawEntry where
  date : Int
  production : ℚ
  id : Option String
deriving DecidableEq, Repr

/-- The id-backfill map of the load effect (lines 155-158):
`parsedEntries.map((entry) => ({ ...entry, id: entry.id || crypto.randomUUID() }))`,
each missing/empty id replaced by a separately generated fresh one. -/
def entriesWithIds (gen : Nat → String) : Nat → List RawEntry → List SolarEntry
  | _, [] => []
  | c, r :: rs =>
    { date := r.date, production := r.production,
      id := match r.id with
            | some s => if s = "" then gen c else s
            | none => gen c } :: entriesWithIds gen (c + 1) rs

/-- The three states of the persisted `localStorage` key: absent
(`getItem` returns null), unparseable (`JSON.parse` throws), or a parsed
array of raw entries. -/
inductive StoredData where
  | absent : StoredData
  | corrupt : StoredData
  | parsed : List RawEntry → StoredData

/-- The load effect (weekly-summary.tsx lines 148-170): absent data leaves
the entry list empty, a parse error is caught and likewise leaves it empty
(with a non-fatal toast), and parsed data is normalized by the id
backfill. -/
def loadEntries (gen : Nat → String) : StoredData → List SolarEntry
  | .absent => []
  | .corrupt => []
  | .parsed raws => entriesWithIds gen 0 raws

/-- A store mutation: upsert (form submit) or remove (confirmed delete).
The delete-undo re-insertion is `restoreEntry`, deliberately not part of
this type. -/
inductive StoreOp where
  | upsert : Int → ℚ → String → StoreOp
  | remove : String → StoreOp

/-- Apply one store mutation. -/
def applyOp (es : List SolarEntry) : StoreOp → List SolarEntry
  | .upsert d p newId => upsertEntries es d p newId
  | .remove targetId => removeEntries es targetId

/-- Apply a sequence of store mutations in order. -/
def applyOps (es : List SolarEntry) (ops : List StoreOp) : List SolarEntry :=
  ops.foldl applyOp es

/-- The spec's §8 example week: anchor Sunday 2023-01-01 (day 19358),
entries Monday 2023-01-02 = 5 kWh and Wednesday 2023-01-04 = 3 kWh. -/
def specExampleWeek : List SolarEntry :=
  getCurrentWeekEntries (fun _ => "gen") 19358 [⟨19359, 5, "mon"⟩, ⟨19361, 3, "wed"⟩]

/-- The spec's tie-break example week: Monday 2023-01-02 and Thursday
2023-01-05 both at 5 kWh, rest zero. -/
def tieWeek : List SolarEntry :=
  getCurrentWeekEntries (fun _ => "gen") 19358 [⟨19359, 5, "mon"⟩, ⟨19362, 5, "thu"⟩]

/-- An all-zero week window (no stored entries at all). -/
def allZeroWeek : List SolarEntry :=
  getCurrentWeekEntries (fun _ => "gen") 0 []

/- Helper lemmas. -/

theorem foldl_add_production (w : List SolarEntry) (a : ℚ) :
    w.foldl (fun sum entry => sum + entry.production) a
      = a + (w.map (fun e => e.production)).sum := by
  induction w generalizing a with
  | nil => simp
  | cons e es ih => simp [ih, add_assoc]

theorem weeklyTotal_eq_sum (w : List SolarEntry) :
    weeklyTotal w = (w.map (fun e => e.production)).sum := by
  simp [weeklyTotal, foldl_add_production]

theorem foldl_add_rat (l : List ℚ) (a : ℚ) :
    l.foldl (fun sum value => sum + value) a = a + l.sum := by
  induction l generalizing a with
  | nil => simp
  | cons x t ih => simp [ih, add_assoc]

theorem daysWithProduction_eq_countP (w : List SolarEntry) :
    daysWithProduction w = w.countP (fun e => e.production > 0) := by
  simp [daysWithProduction, List.countP_eq_length_filter]

theorem foldl_max_zero (ps : List ℚ) (h : ∀ x ∈ ps, x = 0) :
    ps.foldl max 0 = 0 := by
  induction ps with
  | nil => rfl
  | cons p t ih =>
    have hp := h p (by simp)
    simp only [List.foldl_cons, hp, max_self]
    exact ih (fun x hx => h x (by simp [hx]))

theorem maxProduction_allZero (w : List SolarEntry) (hz : ∀ e ∈ w, e.production = 0) :
    maxProduction w = 0 := by
  cases w with
  | nil => rfl
  | cons e t =>
    have he := hz e (by simp)
    show (t.map (fun entry => entry.production)).foldl max e.production = 0
    rw [he]
    refine foldl_max_zero _ ?_
    intro x hx
    obtain ⟨y, hy, rfl⟩ := List.mem_map.mp hx
    exact hz y (by simp [hy])

theorem filter_pos_map_production (w : List SolarEntry) :
    (w.map (fun e => e.production)).filter (fun value => value > 0)
      = (w.filter (fun e => e.production > 0)).map (fun e => e.production) := by
  induction w with
  | nil => rfl
  | cons e t ih =>
    by_cases h : e.production > 0
    · simp [h, ih]
    · simp [h, ih]

theorem sum_filter_pos (l : List ℚ) (h : ∀ x ∈ l, 0 ≤ x) :
    (l.filter (fun value => value > 0)).sum = l.sum := by
  induction l with
  | nil => rfl
  | cons x t ih =>
    have hx := h x (by simp)
    have iht := ih (fun y hy => h y (by simp [hy]))
    by_cases hpos : x > 0
    · simp [hpos, iht]
    · have hx0 : x = 0 := le_antisymm (not_lt.mp hpos) hx
      simp [hpos, hx0, iht]

/-- C2: `weeklyStats` computes `total` as the sum of production over the
week, `dailyAverage` as `total` divided by the number of productive days
(0 when there is none), and on the spec's example week
[Sun:0, Mon:5, Tue:0, Wed:3, Thu:0, Fri:0, Sat:0] it returns
`total = 8`, `dailyAverage = 4` and best day Monday with 5 kWh. -/
theorem weeklyStats_spec :
    (∀ w : List SolarEntry,
        (calculateWeeklyStats w).weeklyTotal = (w.map (fun e => e.production)).sum)
    ∧ (∀ w : List SolarEntry, w.countP (fun e => e.production > 0) = 0 →
        (calculateWeeklyStats w).dailyAverage = 0)
    ∧ (∀ w : List SolarEntry, w.countP (fun e => e.production > 0) ≠ 0 →
        (calculateWeeklyStats w).dailyAverage =
          (w.map (fun e => e.production)).sum
            / (w.countP (fun e => e.production > 0) : ℚ))
    ∧ specExampleWeek.map (fun e => e.production) = [0, 5, 0, 3, 0, 0, 0]
    ∧ (calculateWeeklyStats specExampleWeek).weeklyTotal = 8
    ∧ (calculateWeeklyStats specExampleWeek).dailyAverage = 4
    ∧ (calculateWeeklyStats specExampleWeek).maxProduction = 5
    ∧ (calculateWeeklyStats specExampleWeek).maxProductionDay = some ⟨19359, 5, "mon"⟩
    ∧ civilFromDays 19359 = ⟨2023, 1, 2⟩
    ∧ dayOfWeek 19359 = 1 := by
  have hmap : specExampleWeek.map (fun e => e.production) = [0, 5, 0, 3, 0, 0, 0] := by
    decide
  have htot : weeklyTotal specExampleWeek = 8 := by
    rw [weeklyTotal_eq_sum, hmap]; norm_num
  have hdays : daysWithProduction specExampleWeek = 2 := by decide
  refine ⟨?_, ?_, ?_, hmap, htot, ?_, by decide, by decide, by decide, by decide⟩
  · intro w
    exact weeklyTotal_eq_sum w
  · intro w h
    show dailyAverage w = 0
    rw [dailyAverage, daysWithProduction_eq_countP, h]
    simp
  · intro w h
    show dailyAverage w =
      (w.map (fun e => e.production)).sum / (w.countP (fun e => e.production > 0) : ℚ)
    rw [dailyAverage, daysWithProduction_eq_countP, weeklyTotal_eq_sum,
      if_pos (Nat.pos_of_ne_zero h)]
  · show dailyAverage specExampleWeek = 4
    rw [dailyAverage, hdays, if_pos (by norm_num), htot]
    norm_num

/-- C2 witness: the spec example week instantiates the productive-day
average formula (2 productive days). -/
theorem weeklyStats_spec_witness :
    specExampleWeek.countP (fun e => e.production > 0) ≠ 0
    ∧ (calculateWeeklyStats specExampleWeek).dailyAverage =
        (specExampleWeek.map (fun e => e.production)).sum
          / (specExampleWeek.countP (fun e => e.production > 0) : ℚ) :=
  ⟨by decide, weeklyStats_spec.2.2.1 specExampleWeek (by decide)⟩

/-- C3: on a week window whose days all have zero production, the reported
best day is absent (the rendering guard `maxProduction > 0 &&
maxProductionDay`), the weekly total is 0 and the daily average is 0. -/
theorem weeklyStats_allZero (w : List SolarEntry) (hz : ∀ e ∈ w, e.production = 0) :
    reportedBestDay w = none
    ∧ (calculateWeeklyStats w).weeklyTotal = 0
    ∧ (calculateWeeklyStats w).dailyAverage = 0 := by
  have hmax : maxProduction w = 0 := maxProduction_allZero w hz
  have hcount : daysWithProduction w = 0 := by
    have : w.filter (fun e => e.production > 0) = [] := by
      rw [List.filter_eq_nil_iff]
      intro a ha
      simp [hz a ha]
    simp [daysWithProduction, this]
  refine ⟨?_, ?_, ?_⟩
  · simp [reportedBestDay, hmax]
  · show weeklyTotal w = 0
    rw [weeklyTotal_eq_sum]
    refine List.sum_eq_zero ?_
    intro x hx
    obtain ⟨e, he, rfl⟩ := List.mem_map.mp hx
    exact hz e he
  · show dailyAverage w = 0
    simp [dailyAverage, hcount]

/-- C3 witness: the empty-store week window is all-zero. -/
theorem weeklyStats_allZero_witness :
    reportedBestDay allZeroWeek = none
    ∧ (calculateWeeklyStats allZeroWeek).weeklyTotal = 0
    ∧ (calculateWeeklyStats allZeroWeek).dailyAverage = 0 :=
  weeklyStats_allZero allZeroWeek (by decide)

/-- C5: the chart's reference average (solar-chart.tsx) coincides with the
statistics calculator's daily average (weekly-summary.tsx) on every week
window (all productions non-negative), although the two are computed by
independent code paths. -/
theorem chartReferenceAverage_eq_dailyAverage (w : List SolarEntry)
    (hnn : ∀ e ∈ w, 0 ≤ e.production) :
    chartReferenceAverage w = (calculateWeeklyStats w).dailyAverage := by
  show chartReferenceAverage w = dailyAverage w
  have hlen : ((w.map (fun e => e.production)).filter (fun value => value > 0)).length
      = daysWithProduction w := by
    rw [filter_pos_map_production]
    simp [daysWithProduction]
  have hsum : ((w.map (fun e => e.production)).filter (fun value => value > 0)).sum
      = (w.map (fun e => e.production)).sum := by
    refine sum_filter_pos _ ?_
    intro x hx
    obtain ⟨e, he, rfl⟩ := List.mem_map.mp hx
    exact hnn e he
  rw [chartReferenceAverage, dailyAverage, weeklyTotal_eq_sum]
  simp only [foldl_add_rat, zero_add, hlen, hsum]

/-- C5 witness: the two averages agree on the spec example week. -/
theorem chartReferenceAverage_eq_dailyAverage_witness :
    chartReferenceAverage specExampleWeek
      = (calculateWeeklyStats specExampleWeek).dailyAverage :=
  chartReferenceAverage_eq_dailyAverage specExampleWeek (by decide)

/- Week-window helper lemmas. -/

theorem dayOfWeek_startOfWeek (n : Int) : dayOfWeek (startOfWeek n) = 0 := by
  unfold startOfWeek dayOfWeek
  omega

theorem startOfWeek_le (n : Int) : startOfWeek n ≤ n := by
  unfold startOfWeek dayOfWeek
  omega

theorem lt_startOfWeek_add_seven (n : Int) : n < startOfWeek n + 7 := by
  unfold startOfWeek dayOfWeek
  omega

theorem startOfWeek_maximal (a s : Int) (h0 : dayOfWeek s = 0) (hle : s ≤ a) :
    s ≤ startOfWeek a := by
  unfold dayOfWeek at h0
  unfold startOfWeek dayOfWeek
  omega

theorem startOfWeek_of_sunday (a : Int) (h : dayOfWeek a = 0) : startOfWeek a = a := by
  unfold startOfWeek dayOfWeek at *
  omega

theorem getCurrentWeekEntries_get (gen : Nat → String) (anchor : Int)
    (entries : List SolarEntry) (i : Nat)
    (h : i < (getCurrentWeekEntries gen anchor entries).length) :
    (getCurrentWeekEntries gen anchor entries).get ⟨i, h⟩
      = match entries.find? (fun e => e.date = startOfWeek anchor + (i : Int)) with
        | some e => { date := startOfWeek anchor + (i : Int), production := e.production,
                      id := if e.id = "" then gen i else e.id }
        | none => { date := startOfWeek anchor + (i : Int), production := 0, id := gen i } := by
  simp [getCurrentWeekEntries]

theorem find?_date_of_nodup (entries : List SolarEntry) (e : SolarEntry) (d : Int)
    (hnd : (entries.map (fun x => x.date)).Nodup) (he : e ∈ entries) (hd : e.date = d) :
    entries.find? (fun x => x.date = d) = some e := by
  induction entries with
  | nil => cases he
  | cons a t ih =>
    rw [List.map_cons, List.nodup_cons] at hnd
    rcases List.mem_cons.mp he with rfl | hmem
    · rw [List.find?_cons_of_pos]
      simp [hd]
    · have had : a.date ≠ d := by
        intro hcontra
        refine hnd.1 ?_
        rw [hcontra, ← hd]
        exact List.mem_map_of_mem _ hmem
      rw [List.find?_cons_of_neg]
      · exact ih hnd.2 hmem
      · simp [had]

/-- C1: the week window has exactly 7 entries in ascending consecutive-date
order; the first date is the most recent Sunday at or before the anchor
(the anchor itself on a Sunday); each day carries the stored entry's
production when one exists for that date and 0 otherwise; and the civil
reading of the window crosses year-end (2024-01-01 anchor), leap-day and
month-end (2024-02-29 anchor) boundaries transparently. -/
theorem getCurrentWeekEntries_spec (gen : Nat → String) (anchor : Int)
    (entries : List SolarEntry) (hnd : (entries.map (fun e => e.date)).Nodup) :
    (getCurrentWeekEntries gen anchor entries).length = 7
    ∧ (∀ (i : Nat) (h : i < (getCurrentWeekEntries gen anchor entries).length),
        ((getCurrentWeekEntries gen anchor entries).get ⟨i, h⟩).date
          = startOfWeek anchor + (i : Int))
    ∧ dayOfWeek (startOfWeek anchor) = 0
    ∧ startOfWeek anchor ≤ anchor
    ∧ anchor < startOfWeek anchor + 7
    ∧ (∀ s : Int, dayOfWeek s = 0 → s ≤ anchor → s ≤ startOfWeek anchor)
    ∧ (dayOfWeek anchor = 0 → startOfWeek anchor = anchor)
    ∧ (∀ (i : Nat) (h : i < (getCurrentWeekEntries gen anchor entries).length)
        (e : SolarEntry), e ∈ entries → e.date = startOfWeek anchor + (i : Int) →
        ((getCurrentWeekEntries gen anchor entries).get ⟨i, h⟩).production = e.production)
    ∧ (∀ (i : Nat) (h : i < (getCurrentWeekEntries gen anchor entries).length),
        (∀ e ∈ entries, e.date ≠ startOfWeek anchor + (i : Int)) →
        ((getCurrentWeekEntries gen anchor entries).get ⟨i, h⟩).production = 0)
    ∧ ((getCurrentWeekEntries (fun _ => "u") (daysFromCivil ⟨2024, 1, 1⟩) []).map
        (fun e => civilFromDays e.date))
        = [⟨2023, 12, 31⟩, ⟨2024, 1, 1⟩, ⟨2024, 1, 2⟩, ⟨2024, 1, 3⟩,
           ⟨2024, 1, 4⟩, ⟨2024, 1, 5⟩, ⟨2024, 1, 6⟩]
    ∧ ((getCurrentWeekEntries (fun _ => "u") (daysFromCivil ⟨2024, 2, 29⟩) []).map
        (fun e => civilFromDays e.date))
        = [⟨2024, 2, 25⟩, ⟨2024, 2, 26⟩, ⟨2024, 2, 27⟩, ⟨2024, 2, 28⟩,
           ⟨2024, 2, 29⟩, ⟨2024, 3, 1⟩, ⟨2024, 3, 2⟩]
    ∧ ((getCurrentWeekEntries (fun _ => "u") (daysFromCivil ⟨2023, 1, 1⟩) []).map
        (fun e => civilFromDays e.date))
        = [⟨2023, 1, 1⟩, ⟨2023, 1, 2⟩, ⟨2023, 1, 3⟩, ⟨2023, 1, 4⟩,
           ⟨2023, 1, 5⟩, ⟨2023, 1, 6⟩, ⟨2023, 1, 7⟩] := by
  refine ⟨by simp [getCurrentWeekEntries], ?_, dayOfWeek_startOfWeek anchor,
    startOfWeek_le anchor, lt_startOfWeek_add_seven anchor,
    fun s => startOfWeek_maximal anchor s, startOfWeek_of_sunday anchor,
    ?_, ?_, by decide, by decide, by decide⟩
  · intro i h
    rw [getCurrentWeekEntries_get]
    cases entries.find? (fun e => e.date = startOfWeek anchor + (i : Int)) <;> rfl
  · intro i h e hmem hdate
    rw [getCurrentWeekEntries_get]
    rw [find?_date_of_nodup entries e _ hnd hmem hdate]
  · intro i h hnone
    rw [getCurrentWeekEntries_get]
    have : entries.find? (fun e => e.date = startOfWeek anchor + (i : Int)) = none := by
      rw [List.find?_eq_none]
      intro e he
      simp [hnone e he]
    rw [this]

/-- C1 witness: the spec-example store instantiates the window theorem; the
window for anchor Sunday 2023-01-01 has length 7 and carries the Monday
entry's production on day 1. -/
theorem getCurrentWeekEntries_spec_witness :
    (getCurrentWeekEntries (fun _ => "gen") 19358 [⟨19359, 5, "mon"⟩]).length = 7 :=
  (getCurrentWeekEntries_spec (fun _ => "gen") 19358 [⟨19359, 5, "mon"⟩] (by decide)).1

/- Best-day helper lemmas. -/

theorem foldl_max_self_or_mem (ps : List ℚ) (a : ℚ) :
    ps.foldl max a = a ∨ ps.foldl max a ∈ ps := by
  induction ps generalizing a with
  | nil => left; rfl
  | cons q t ih =>
    simp only [List.foldl_cons]
    rcases ih (max a q) with h | h
    · rw [h]
      rcases max_choice a q with h2 | h2
      · left; exact h2
      · right; rw [h2]; exact List.mem_cons_self q t
    · right; exact List.mem_cons_of_mem q h

theorem exists_mem_eq_maxProduction (w : List SolarEntry) (hw : w ≠ []) :
    ∃ e ∈ w, e.production = maxProduction w := by
  cases w with
  | nil => exact absurd rfl hw
  | cons a t =>
    show ∃ e ∈ a :: t,
      e.production = (t.map (fun entry => entry.production)).foldl max a.production
    rcases foldl_max_self_or_mem (t.map (fun entry => entry.production)) a.production
      with h | h
    · exact ⟨a, List.mem_cons_self a t, h.symm⟩
    · obtain ⟨e, he, heq⟩ := List.mem_map.mp h
      exact ⟨e, List.mem_cons_of_mem a he, heq⟩

theorem find?_first_min_date (w : List SolarEntry) (p : SolarEntry → Bool) (b : SolarEntry)
    (hsorted : w.Pairwise (fun x y => x.date < y.date)) (hfind : w.find? p = some b) :
    ∀ e ∈ w, p e → b.date ≤ e.date := by
  induction w with
  | nil => cases hfind
  | cons a t ih =>
    rw [List.pairwise_cons] at hsorted
    by_cases hpa : p a
    · rw [List.find?_cons_of_pos _ hpa] at hfind
      have hb : a = b := by injection hfind
      subst hb
      intro e he hpe
      rcases List.mem_cons.mp he with rfl | hmem
      · exact le_refl _
      · exact le_of_lt (hsorted.1 e hmem)
    · rw [List.find?_cons_of_neg _ hpa] at hfind
      intro e he hpe
      rcases List.mem_cons.mp he with rfl | hmem
      · exact absurd hpe hpa
      · exact ih hsorted.2 hfind e hmem hpe

/-- C4: when the maximum production of a week window (ascending dates) is
positive and attained more than once, the best day is the first — earliest
date — entry attaining it; in particular the week [Mon:5, Thu:5, rest 0]
resolves to Monday 2023-01-02, not Thursday 2023-01-05. -/
theorem bestDay_tiebreak :
    (∀ w : List SolarEntry, w.Pairwise (fun x y => x.date < y.date) →
      0 < maxProduction w →
      ∃ b, reportedBestDay w = some b
        ∧ b.production = maxProduction w
        ∧ ∀ e ∈ w, e.production = maxProduction w → b.date ≤ e.date)
    ∧ (calculateWeeklyStats tieWeek).maxProductionDay = some ⟨19359, 5, "mon"⟩
    ∧ reportedBestDay tieWeek = some ⟨19359, 5, "mon"⟩
    ∧ tieWeek.map (fun e => e.production) = [0, 5, 0, 0, 5, 0, 0]
    ∧ civilFromDays 19359 = ⟨2023, 1, 2⟩
    ∧ dayOfWeek 19359 = 1
    ∧ civilFromDays 19362 = ⟨2023, 1, 5⟩
    ∧ dayOfWeek 19362 = 4 := by
  refine ⟨?_, by decide, by decide, by decide, by decide, by decide, by decide, by decide⟩
  intro w hsorted hpos
  have hw : w ≠ [] := by
    intro hnil
    subst hnil
    exact absurd hpos (by simp [maxProduction])
  obtain ⟨e, he, heq⟩ := exists_mem_eq_maxProduction w hw
  have hsome : (w.find? (fun entry => entry.production = maxProduction w)).isSome := by
    rw [List.find?_isSome]
    exact ⟨e, he, by simp [heq]⟩
  obtain ⟨b, hb⟩ := Option.isSome_iff_exists.mp hsome
  refine ⟨b, ?_, ?_, ?_⟩
  · rw [reportedBestDay, if_pos hpos, maxProductionDay, hb]
  · have := List.find?_some hb
    simpa using this
  · intro x hx hxmax
    exact find?_first_min_date w _ b hsorted hb x hx (by simp [hxmax])

/-- C4 witness: the tie-break week instantiates the theorem (its maximum,
5, is positive and attained on Monday and Thursday). -/
theorem bestDay_tiebreak_witness :
    ∃ b, reportedBestDay tieWeek = some b
      ∧ b.production = maxProduction tieWeek
      ∧ ∀ e ∈ tieWeek, e.production = maxProduction tieWeek → b.date ≤ e.date :=
  bestDay_tiebreak.1 tieWeek (by decide) (by decide)

/- Store-invariant helper lemmas. -/

theorem mem_upsert_dates (es : List SolarEntry) (d : Int) (p : ℚ) (nid : String)
    (x : Int) (h : x ∈ (upsertEntries es d p nid).map (fun e => e.date)) :
    x ∈ es.map (fun e => e.date) ∨ x = d := by
  induction es with
  | nil =>
    simp [upsertEntries] at h
    right; exact h
  | cons a t ih =>
    by_cases had : a.date = d
    · simp only [upsertEntries, if_pos had, List.map_cons, List.mem_cons] at h
      rcases h with rfl | h
      · left; simp
      · left; simp [h]
    · simp only [upsertEntries, if_neg had, List.map_cons, List.mem_cons] at h
      rcases h with rfl | h
      · left; simp
      · rcases ih h with h2 | h2
        · left; simp [h2]
        · right; exact h2

theorem upsert_dates_nodup (es : List SolarEntry) (d : Int) (p : ℚ) (nid : String)
    (hnd : (es.map (fun e => e.date)).Nodup) :
    ((upsertEntries es d p nid).map (fun e => e.date)).Nodup := by
  induction es with
  | nil => simp [upsertEntries]
  | cons a t ih =>
    rw [List.map_cons, List.nodup_cons] at hnd
    by_cases had : a.date = d
    · simp only [upsertEntries, if_pos had, List.map_cons, List.nodup_cons]
      exact ⟨hnd.1, hnd.2⟩
    · simp only [upsertEntries, if_neg had, List.map_cons, List.nodup_cons]
      refine ⟨?_, ih hnd.2⟩
      intro hmem
      rcases mem_upsert_dates t d p nid a.date hmem with h | h
      · exact hnd.1 h
      · exact had h

theorem remove_dates_nodup (es : List SolarEntry) (tid : String)
    (hnd : (es.map (fun e => e.date)).Nodup) :
    ((removeEntries es tid).map (fun e => e.date)).Nodup :=
  List.Nodup.sublist (List.Sublist.map _ (List.filter_sublist es)) hnd

/-- C6 (amended): starting from a state whose dates are pairwise distinct,
every sequence of upsert and remove operations preserves the
one-entry-per-date invariant, and loading preserves the stored dates (so
loading duplicate-free data yields a duplicate-free state).  The
delete-undo re-insertion is excluded: it can violate the invariant (see
the counterexample). -/
theorem storeDates_nodup_invariant (es : List SolarEntry) (ops : List StoreOp)
    (hnd : (es.map (fun e => e.date)).Nodup) :
    ((applyOps es ops).map (fun e => e.date)).Nodup
    ∧ ∀ (gen : Nat → String) (c : Nat) (raws : List RawEntry),
        (entriesWithIds gen c raws).map (fun e => e.date)
          = raws.map (fun r => r.date) := by
  constructor
  · induction ops generalizing es with
    | nil => exact hnd
    | cons op t ih =>
      have h1 : ((applyOp es op).map (fun e => e.date)).Nodup := by
        cases op with
        | upsert d p nid => exact upsert_dates_nodup es d p nid hnd
        | remove tid => exact remove_dates_nodup es tid hnd
      exact ih (applyOp es op) h1
  · intro gen c raws
    induction raws generalizing c with
    | nil => rfl
    | cons r t ih => simp [entriesWithIds, ih]

/-- C6 witness: a concrete upsert/remove/upsert run from the empty store
keeps dates duplicate-free. -/
theorem storeDates_nodup_invariant_witness :
    ((applyOps [] [StoreOp.upsert 0 1 "a", StoreOp.remove "a",
        StoreOp.upsert 0 2 "b"]).map (fun e => e.date)).Nodup :=
  (storeDates_nodup_invariant []
    [StoreOp.upsert 0 1 "a", StoreOp.remove "a", StoreOp.upsert 0 2 "b"]
    (by decide)).1

/-- C6 counterexample: upsert date 0, delete the entry, upsert date 0 again
(new id), then undo the delete — the collection now holds two entries with
date 0, so the invariant does not survive the delete-undo re-insertion. -/
theorem storeInvariant_undo_counterexample :
    ¬ (((restoreEntry
          (upsertEntries (removeEntries (upsertEntries [] 0 1 "a") "a") 0 2 "b")
          ⟨0, 1, "a"⟩).map (fun e => e.date)).Nodup) := by
  decide

/- Upsert helper lemmas. -/

theorem upsert_of_no_match (es : List SolarEntry) (d : Int) (p : ℚ) (nid : String)
    (h : ∀ e ∈ es, e.date ≠ d) :
    upsertEntries es d p nid = es ++ [⟨d, p, nid⟩] := by
  induction es with
  | nil => rfl
  | cons a t ih =>
    have ha := h a (List.mem_cons_self a t)
    simp only [upsertEntries, if_neg ha, List.cons_append, List.cons.injEq, true_and]
    exact ih (fun e he => h e (List.mem_cons_of_mem a he))

theorem upsert_first_match (l₁ : List SolarEntry) (e : SolarEntry) (l₂ : List SolarEntry)
    (d : Int) (p : ℚ) (nid : String) (hd : e.date = d)
    (hfirst : ∀ x ∈ l₁, x.date ≠ d) :
    upsertEntries (l₁ ++ e :: l₂) d p nid = l₁ ++ { e with production := p } :: l₂ := by
  induction l₁ with
  | nil => simp [upsertEntries, hd]
  | cons a t ih =>
    have ha := hfirst a (List.mem_cons_self a t)
    simp only [List.cons_append, upsertEntries, if_neg ha, List.cons.injEq, true_and]
    exact ih (fun x hx => hfirst x (List.mem_cons_of_mem a hx))

theorem exists_first_match (es : List SolarEntry) (d : Int) (h : ∃ e ∈ es, e.date = d) :
    ∃ l₁ e l₂, es = l₁ ++ e :: l₂ ∧ e.date = d ∧ ∀ x ∈ l₁, x.date ≠ d := by
  induction es with
  | nil =>
    obtain ⟨e, he, _⟩ := h
    cases he
  | cons a t ih =>
    by_cases had : a.date = d
    · exact ⟨[], a, t, rfl, had, by simp⟩
    · have h' : ∃ e ∈ t, e.date = d := by
        obtain ⟨e, he, hed⟩ := h
        rcases List.mem_cons.mp he with rfl | hm
        · exact absurd hed had
        · exact ⟨e, hm, hed⟩
      obtain ⟨l₁, e, l₂, heq, hed, hfirst⟩ := ih h'
      refine ⟨a :: l₁, e, l₂, by simp [heq], hed, ?_⟩
      intro x hx
      rcases List.mem_cons.mp hx with rfl | hm
      · exact had
      · exact hfirst x hm

theorem find?_append_of_none {α : Type} (l₁ l₂ : List α) (p : α → Bool)
    (h : ∀ x ∈ l₁, ¬ p x) :
    (l₁ ++ l₂).find? p = l₂.find? p := by
  induction l₁ with
  | nil => rfl
  | cons a t ih =>
    rw [List.cons_append, List.find?_cons_of_neg _ (h a (List.mem_cons_self a t))]
    exact ih (fun x hx => h x (List.mem_cons_of_mem a hx))

theorem filter_eq_nil_of_no_match (es : List SolarEntry) (d : Int)
    (h : ∀ x ∈ es, x.date ≠ d) :
    es.filter (fun e => e.date = d) = [] := by
  rw [List.filter_eq_nil_iff]
  intro a ha
  simp [h a ha]

/-- C7: upsert on an existing date replaces just that entry's production
(id and date unchanged, all other entries untouched); upsert on a new date
appends a new entry carrying the freshly generated id; and two successive
upserts on the same date leave exactly one entry for it, with the second
production value and the id obtained after the first upsert. -/
theorem upsertEntries_spec :
    (∀ (es : List SolarEntry) (d : Int) (p : ℚ) (nid : String),
      (∀ e ∈ es, e.date ≠ d) → upsertEntries es d p nid = es ++ [⟨d, p, nid⟩])
    ∧ (∀ (l₁ : List SolarEntry) (e : SolarEntry) (l₂ : List SolarEntry)
        (d : Int) (p : ℚ) (nid : String), e.date = d → (∀ x ∈ l₁, x.date ≠ d) →
        upsertEntries (l₁ ++ e :: l₂) d p nid = l₁ ++ { e with production := p } :: l₂)
    ∧ (∀ (es : List SolarEntry) (d : Int) (p₁ p₂ : ℚ) (nid₁ nid₂ : String),
        (es.map (fun e => e.date)).Nodup →
        ∃ i, (upsertEntries (upsertEntries es d p₁ nid₁) d p₂ nid₂).filter
              (fun e => e.date = d) = [⟨d, p₂, i⟩]
          ∧ (upsertEntries es d p₁ nid₁).find? (fun e => e.date = d)
              = some ⟨d, p₁, i⟩) := by
  refine ⟨upsert_of_no_match, upsert_first_match, ?_⟩
  intro es d p₁ p₂ nid₁ nid₂ hnd
  by_cases hmem : ∃ e ∈ es, e.date = d
  · obtain ⟨l₁, e, l₂, rfl, hed, hfirst⟩ := exists_first_match es d hmem
    have hl₂ : ∀ x ∈ l₂, x.date ≠ d := by
      intro x hx hxd
      rw [List.map_append, List.map_cons] at hnd
      have h2 := List.Nodup.of_append_right hnd
      rw [List.nodup_cons] at h2
      refine h2.1 ?_
      have hm : x.date ∈ l₂.map (fun y => y.date) := List.mem_map_of_mem _ hx
      rw [hxd, ← hed] at hm
      exact hm
    have h1 := upsert_first_match l₁ e l₂ d p₁ nid₁ hed hfirst
    have h2 := upsert_first_match l₁ { e with production := p₁ } l₂ d p₂ nid₂ hed hfirst
    refine ⟨e.id, ?_, ?_⟩
    · rw [h1, h2, List.filter_append, filter_eq_nil_of_no_match l₁ d hfirst]
      rw [List.filter_cons_of_pos (by simp [hed]), filter_eq_nil_of_no_match l₂ d hl₂]
      simp [hed]
    · rw [h1, find?_append_of_none l₁ _ _ (fun x hx => by simp [hfirst x hx]),
        List.find?_cons_of_pos _ (by simp [hed])]
      simp [hed]
  · push_neg at hmem
    have h1 := upsert_of_no_match es d p₁ nid₁ hmem
    have h2 := upsert_first_match es ⟨d, p₁, nid₁⟩ [] d p₂ nid₂ rfl hmem
    refine ⟨nid₁, ?_, ?_⟩
    · rw [h1, h2, List.filter_append, filter_eq_nil_of_no_match es d hmem]
      rw [List.filter_cons_of_pos (by simp)]
      rfl
    · rw [h1, find?_append_of_none es _ _ (fun x hx => by simp [hmem x hx]),
        List.find?_cons_of_pos _ (by simp)]

/-- C7 witness: two upserts on date 0 starting from a one-entry store on
date 5. -/
theorem upsertEntries_spec_witness :
    ∃ i, (upsertEntries (upsertEntries [⟨5, 7, "old"⟩] 0 1 "a") 0 2 "b").filter
          (fun e => e.date = 0) = [⟨0, 2, i⟩]
      ∧ (upsertEntries [⟨5, 7, "old"⟩] 0 1 "a").find? (fun e => e.date = 0)
          = some ⟨0, 1, i⟩ :=
  upsertEntries_spec.2.2 [⟨5, 7, "old"⟩] 0 1 2 "a" "b" (by decide)

/-- C8 (amended): when the entry list holds several entries for one window
date, the week window carries the production of the first-encountered
match in iteration order (`entries.find`), even if later matches exist. -/
theorem weekWindowDuplicate_firstMatch (gen : Nat → String) (anchor : Int)
    (l₁ : List SolarEntry) (e : SolarEntry) (l₂ : List SolarEntry) (i : Nat)
    (h : i < (getCurrentWeekEntries gen anchor (l₁ ++ e :: l₂)).length)
    (hd : e.date = startOfWeek anchor + (i : Int))
    (hfirst : ∀ x ∈ l₁, x.date ≠ startOfWeek anchor + (i : Int)) :
    ((getCurrentWeekEntries gen anchor (l₁ ++ e :: l₂)).get ⟨i, h⟩).production
      = e.production := by
  rw [getCurrentWeekEntries_get]
  rw [find?_append_of_none l₁ _ _ (fun x hx => by simp [hfirst x hx]),
    List.find?_cons_of_pos _ (by simp [hd])]

/-- C8 witness: with duplicates [date 3 ↦ 1, date 3 ↦ 2], Sunday (day 3)
carries the first match's production 1. -/
theorem weekWindowDuplicate_firstMatch_witness :
    ((getCurrentWeekEntries (fun _ => "u") 3 [⟨3, 1, "a"⟩, ⟨3, 2, "b"⟩]).get
        ⟨0, by decide⟩).production = 1 :=
  weekWindowDuplicate_firstMatch (fun _ => "u") 3 [] ⟨3, 1, "a"⟩ [⟨3, 2, "b"⟩] 0
    (by decide) (by decide) (by decide)

/-- C8 counterexample: on the duplicate list [date 3 ↦ 1, date 3 ↦ 2] the
window's Sunday production is 1, the first-encountered match — not 2, the
last-encountered match the claim requires. -/
theorem weekWindowDuplicate_lastMatch_counterexample :
    ((getCurrentWeekEntries (fun _ => "u") 3 [⟨3, 1, "a"⟩, ⟨3, 2, "b"⟩]).map
        (fun e => e.production)).head? = some 1
    ∧ ((getCurrentWeekEntries (fun _ => "u") 3 [⟨3, 1, "a"⟩, ⟨3, 2, "b"⟩]).map
        (fun e => e.production)).head? ≠ some 2 := by
  constructor
  · decide
  · decide

/-- C9: load yields the empty collection on absent and on unparseable
stored data, and every entry loaded from parsed data has a non-empty id —
missing (or empty, which is falsy in JS) stored ids are replaced by freshly
generated ones. -/
theorem loadEntries_spec (gen : Nat → String) (hgen : ∀ n, gen n ≠ "") :
    loadEntries gen .absent = []
    ∧ loadEntries gen .corrupt = []
    ∧ ∀ (raws : List RawEntry) (c : Nat), ∀ e ∈ entriesWithIds gen c raws, e.id ≠ "" := by
  refine ⟨rfl, rfl, ?_⟩
  intro raws
  induction raws with
  | nil =>
    intro c e he
    cases he
  | cons r t ih =>
    intro c e he
    rcases List.mem_cons.mp he with rfl | hmem
    · show (match r.id with
        | some s => if s = "" then gen c else s
        | none => gen c) ≠ ""
      cases r.id with
      | none => exact hgen c
      | some s =>
        show (if s = "" then gen c else s) ≠ ""
        by_cases hs : s = ""
        · rw [if_pos hs]
          exact hgen c
        · rw [if_neg hs]
          exact hs
    · exact ih (c + 1) e hmem

/-- C9 witness: with a generator that never returns the empty string, load
of absent data is empty. -/
theorem loadEntries_spec_witness :
    loadEntries (fun _ => "fresh") .absent = [] :=
  (loadEntries_spec (fun _ => "fresh")
    (by intro n; show ("fresh" : String) ≠ ""; decide)).1

/-- C10: remove by id is the identity when no entry carries the id, deletes
exactly the entry carrying the id otherwise (all other entries unchanged),
and always returns a sublist of the input, preserving relative order. -/
theorem removeEntries_spec :
    (∀ (es : List SolarEntry) (tid : String),
      (∀ e ∈ es, e.id ≠ tid) → removeEntries es tid = es)
    ∧ (∀ (l₁ : List SolarEntry) (e : SolarEntry) (l₂ : List SolarEntry) (tid : String),
        e.id = tid → (∀ x ∈ l₁, x.id ≠ tid) → (∀ x ∈ l₂, x.id ≠ tid) →
        removeEntries (l₁ ++ e :: l₂) tid = l₁ ++ l₂)
    ∧ (∀ (es : List SolarEntry) (tid : String),
        List.Sublist (removeEntries es tid) es) := by
  refine ⟨?_, ?_, ?_⟩
  · intro es tid h
    rw [removeEntries, List.filter_eq_self]
    intro a ha
    simp [h a ha]
  · intro l₁ e l₂ tid hid h₁ h₂
    rw [removeEntries, List.filter_append, List.filter_cons_of_neg (by simp [hid])]
    rw [List.filter_eq_self.mpr (fun a ha => by simp [h₁ a ha]),
      List.filter_eq_self.mpr (fun a ha => by simp [h₂ a ha])]
  · intro es tid
    exact List.filter_sublist es

/-- C10 witness: removing id "b" from a three-entry store deletes exactly
the middle entry; removing an id that is not present leaves the store
unchanged. -/
theorem removeEntries_spec_witness :
    removeEntries [⟨0, 1, "a"⟩, ⟨1, 2, "b"⟩, ⟨2, 3, "c"⟩] "b"
        = [⟨0, 1, "a"⟩] ++ [⟨2, 3, "c"⟩]
    ∧ removeEntries [⟨0, 1, "a"⟩] "zz" = [⟨0, 1, "a"⟩] :=
  ⟨removeEntries_spec.2.1 [⟨0, 1, "a"⟩] ⟨1, 2, "b"⟩ [⟨2, 3, "c"⟩] "b"
      (by decide) (by decide) (by decide),
    removeEntries_spec.1 [⟨0, 1, "a"⟩] "zz" (by decide)⟩

end SolarTracker
